import Mathlib

/-!
Verification of the bril-to-riscv compiler against its specification.

The Rust sources are shallowly embedded: `Vec` becomes `List`, `HashMap`
becomes an association list whose insert prepends (so lookups see the most
recent binding, matching `HashMap::insert` overwrite semantics), `i64`/`usize`
become `Int`/`Nat` with explicit wrapping where the source wraps, and every
panicking operation (`unwrap`, out-of-range indexing, `unreachable!`) is
modelled by `Option` with `none` for the panic.
-/

set_option maxRecDepth 10000

/-- Wrapping of an unbounded integer into the 64-bit two's-complement range,
the semantics of Rust `i64` wrapping arithmetic. -/
def wrap64 (n : Int) : Int := ((n + 2 ^ 63) % 2 ^ 64) - 2 ^ 63

/-- Truncated division as Rust performs it (`/` rounds toward zero), wrapped
into `i64` range: the semantics of `i64::wrapping_div` for a nonzero divisor. -/
def wrappingDiv (a b : Int) : Int := wrap64 (Int.tdiv a b)

/-- Association-list lookup, modelling `HashMap::get` / `BTreeMap::get`. -/
def alookup [DecidableEq α] (k : α) : List (α × β) → Option β
  | [] => none
  | (k₁, v) :: rest => if k₁ = k then some v else alookup k rest

/-- Remove the binding of `k`, modelling `HashMap::remove` (a no-op when the
key is absent). -/
def assocRemove [DecidableEq α] (k : α) : List (α × β) → List (α × β)
  | [] => []
  | (k₁, v) :: rest => if k₁ = k then rest else (k₁, v) :: assocRemove k rest

/-- Replace the binding of `k` (or append one), modelling an update through a
map entry that is known to exist, and `entry(k).or_default()` insertion. -/
def assocSet [DecidableEq α] : List (α × β) → α → β → List (α × β)
  | [], k, v => [(k, v)]
  | (k₁, v₁) :: rest, k, v =>
      if k₁ = k then (k, v) :: rest else (k₁, v₁) :: assocSet rest k v

/-- In-place update of the `n`-th element of a list, modelling `vec[n] = ...`
at an index the source guarantees to be in range. -/
def listUpd : List α → Nat → (α → α) → List α
  | [], _, _ => []
  | a :: t, 0, g => g a :: t
  | a :: t, n + 1, g => a :: listUpd t n g

/-- `Vec::resize(n, v)`: truncate to `n` elements or extend with copies of `v`. -/
def listResize (l : List α) (n : Nat) (v : α) : List α :=
  if n ≤ l.length then l.take n else l ++ List.replicate (n - l.length) v

/-- Rust `str::parse::<i64>`: an optional sign, one or more ASCII digits,
rejected when out of the `i64` range. -/
def digitsToNat (cs : List Char) : Option Nat :=
  match cs with
  | [] => none
  | _ => cs.foldl
      (fun acc c =>
        match acc with
        | none => none
        | some a => if c.isDigit then some (a * 10 + (c.toNat - 48)) else none)
      (some 0)

def parseI64 (s : String) : Option Int :=
  match s.data with
  | [] => none
  | c :: rest =>
    let signed : Bool × List Char :=
      if c = '-' then (true, rest) else if c = '+' then (false, rest) else (false, s.data)
    match digitsToNat signed.2 with
    | none => none
    | some n =>
      let v : Int := if signed.1 then -(n : Int) else (n : Int)
      if -(2 ^ 63) ≤ v ∧ v ≤ 2 ^ 63 - 1 then some v else none

/-! ## bril-frontend: flat program (json.rs) -/

/-- `bril_frontend::Literal`. -/
inductive Literal
  | Int (i : Int)
  | Bool (b : Bool)
deriving DecidableEq, Repr

/-- `bril_frontend::Op`. Fixed-size `[String; 2]` fields are pairs; `Vec`
fields are lists. Field order follows the source. -/
inductive Op
  | Add (dest : String) (args : String × String) (typ : String)
  | Sub (dest : String) (args : String × String) (typ : String)
  | Mul (dest : String) (args : String × String) (typ : String)
  | Div (dest : String) (args : String × String) (typ : String)
  | Eq (dest : String) (args : String × String) (typ : String)
  | Lt (dest : String) (args : String × String) (typ : String)
  | Gt (dest : String) (args : String × String) (typ : String)
  | Le (dest : String) (args : String × String) (typ : String)
  | Ge (dest : String) (args : String × String) (typ : String)
  | Not (dest : String) (args : List String)
  | And (dest : String) (args : String × String)
  | Or (dest : String) (args : String × String)
  | Const (dest : String) (typ : String) (value : Literal)
  | Id (dest : String) (args : List String) (typ : String)
  | Br (args : List String) (labels : String × String)
  | Jmp (labels : List String)
  | Call (dest : Option String) (funcs : List String) (args : List String) (typ : String)
  | Ret (args : List String)
  | Print (args : List String)
  | Nop
deriving DecidableEq, Repr

/-- `bril_frontend::Instruction`: a bare label or an op record. -/
inductive BrilInstr
  | Label (label : String)
  | Op (op : Op)
deriving DecidableEq, Repr

/-- `bril_frontend::ValueDef`. -/
structure ValueDef where
  name : String
  typ : String
deriving DecidableEq, Repr

/-- `bril_frontend::Function`. -/
structure BrilFunction where
  name : String
  args : List ValueDef
  instrs : List BrilInstr
  ret_typ : Option String
deriving DecidableEq, Repr

/-! ## bril-ir: CFG construction (cfg.rs) -/

/-- `bril_ir::cfg::IrInstruction`. -/
inductive IrInstruction
  | Add (dest lhs rhs : String)
  | Mul (dest lhs rhs : String)
  | Sub (dest lhs rhs : String)
  | Div (dest lhs rhs : String)
  | Eq (dest lhs rhs : String)
  | Lt (dest lhs rhs : String)
  | Gt (dest lhs rhs : String)
  | Ge (dest lhs rhs : String)
  | Le (dest lhs rhs : String)
  | Not (dest args : String)
  | Or (dest lhs rhs : String)
  | And (dest lhs rhs : String)
  | Call (target_func : String) (args : List String) (dest : Option String)
  | Br (cond then_lbl else_lbl : String)
  | Jmp (label : String)
  | Ret (args : List String)
  | Phi (dest : String) (sources : List (Option String))
  | Const (dest : String) (value : Literal)
  | Print (values : List String)
  | Assign (lhs rhs : String)
deriving DecidableEq, Repr

/-- `IrInstruction::defs`: the name written, if any. -/
def IrInstruction.defs : IrInstruction → List String
  | .Add dest _ _ | .Sub dest _ _ | .Mul dest _ _ | .Div dest _ _
  | .Eq dest _ _ | .Lt dest _ _ | .Gt dest _ _ | .Le dest _ _ | .Ge dest _ _
  | .Or dest _ _ | .And dest _ _ => [dest]
  | .Not dest _ => [dest]
  | .Const dest _ => [dest]
  | .Assign dest _ => [dest]
  | .Phi dest _ => [dest]
  | .Call _ _ dest => match dest with | some d => [d] | none => []
  | _ => []

/-- `IrInstruction::uses`: the names read, in syntactic order. -/
def IrInstruction.uses : IrInstruction → List String
  | .Add _ lhs rhs | .Sub _ lhs rhs | .Mul _ lhs rhs | .Div _ lhs rhs
  | .Eq _ lhs rhs | .Lt _ lhs rhs | .Gt _ lhs rhs | .Ge _ lhs rhs | .Le _ lhs rhs
  | .Or _ lhs rhs | .And _ lhs rhs => [lhs, rhs]
  | .Not _ args => [args]
  | .Br cond _ _ => [cond]
  | .Call _ args _ => args
  | .Ret args => args
  | .Phi _ sources => sources.filterMap id
  | .Print values => values
  | _ => []

/-- `bril_ir::cfg::IrBasicBlock`. -/
structure IrBasicBlock where
  label : String
  instrs : List IrInstruction
  preds : List Nat
  succs : List Nat
deriving DecidableEq, Repr, Inhabited

/-- `bril_ir::cfg::IrFunction`. `label_to_idx` models the `HashMap` as an
association list whose insert prepends. -/
structure IrFunction where
  name : String
  args : List String
  blocks : List IrBasicBlock
  label_to_idx : List (String × Nat)
deriving DecidableEq, Repr, Inhabited

/-- `IrFunction::new`. -/
def IrFunction.new (func_name : String) : IrFunction :=
  { name := func_name, args := [], blocks := [], label_to_idx := [] }

/-- `IrFunction::add_block`: push a fresh block and record its label. -/
def IrFunction.add_block (f : IrFunction) (label : String) : IrFunction × Nat :=
  let idx := f.blocks.length
  ({ f with
      blocks := f.blocks ++ [{ label := label, instrs := [], preds := [], succs := [] }],
      label_to_idx := (label, idx) :: f.label_to_idx },
   idx)

/-- `IrFunction::add_edge` (`to` is renamed `tgt`, a Lean keyword):
`succs[frm].push(tgt); preds[tgt].push(frm)`. -/
def IrFunction.add_edge (f : IrFunction) (frm tgt : Nat) : IrFunction :=
  { f with
      blocks :=
        listUpd (listUpd f.blocks frm (fun bl => { bl with succs := bl.succs ++ [tgt] }))
          tgt (fun bl => { bl with preds := bl.preds ++ [frm] }) }

/-- `IrFunction::append_instr`. -/
def IrFunction.append_instr (f : IrFunction) (idx : Nat) (instr : IrInstruction) : IrFunction :=
  { f with blocks := listUpd f.blocks idx (fun bl => { bl with instrs := bl.instrs ++ [instr] }) }

/-- `IrFunction::block_index`. -/
def IrFunction.block_index (f : IrFunction) (label : String) : Option Nat :=
  alookup label f.label_to_idx

/-- Successor list of block `a` (empty when `a` is out of range). -/
def IrFunction.succsOf (f : IrFunction) (a : Nat) : List Nat :=
  match f.blocks.get? a with
  | some bl => bl.succs
  | none => []

/-- Predecessor list of block `b` (empty when `b` is out of range). -/
def IrFunction.predsOf (f : IrFunction) (b : Nat) : List Nat :=
  match f.blocks.get? b with
  | some bl => bl.preds
  | none => []

/-- Translation of one `bril_frontend::Op` inside `split_into_blocks`.
`none` models the panics there: `Vec` indexing on an empty list, the
`dest.as_ref().unwrap()` on `Call`, and the `panic!` on unimplemented opcodes. -/
def opToIr : Op → Option IrInstruction
  | .Const dest _ value => some (.Const dest value)
  | .Add dest args _ => some (.Add dest args.1 args.2)
  | .Mul dest args _ => some (.Mul dest args.1 args.2)
  | .Sub dest args _ => some (.Sub dest args.1 args.2)
  | .Div dest args _ => some (.Div dest args.1 args.2)
  | .Eq dest args _ => some (.Eq dest args.1 args.2)
  | .Lt dest args _ => some (.Lt dest args.1 args.2)
  | .Gt dest args _ => some (.Gt dest args.1 args.2)
  | .Ge dest args _ => some (.Ge dest args.1 args.2)
  | .Le dest args _ => some (.Le dest args.1 args.2)
  | .Not dest args =>
      match args.get? 0 with
      | some a => some (.Not dest a)
      | none => none
  | .Or dest args => some (.Or dest args.1 args.2)
  | .And dest args => some (.And dest args.1 args.2)
  | .Call dest funcs args _ =>
      match funcs.get? 0, dest with
      | some f0, some d => some (.Call f0 args (some d))
      | _, _ => none
  | .Br args labels =>
      match args.get? 0 with
      | some cond => some (.Br cond labels.1 labels.2)
      | none => none
  | .Jmp labels =>
      match labels.get? 0 with
      | some l => some (.Jmp l)
      | none => none
  | .Ret args => some (.Ret args)
  | .Print args => some (.Print args)
  | .Id dest args _ =>
      match args.get? 0 with
      | some a => some (.Assign dest a)
      | none => none
  | .Nop => none

/-- One step of the instruction walk in `split_into_blocks`: a label opens a
new block, an op is translated and appended to the current block. -/
def splitStep (state : IrFunction × Nat) (instr : BrilInstr) : Option (IrFunction × Nat) :=
  match instr with
  | .Label label => some (state.1.add_block label)
  | .Op op =>
      match opToIr op with
      | some ir => some (state.1.append_instr state.2 ir, state.2)
      | none => none

/-- The walk of `split_into_blocks` over the flat instruction list. -/
def splitWalk : IrFunction × Nat → List BrilInstr → Option (IrFunction × Nat)
  | st, [] => some st
  | st, i :: rest =>
    match splitStep st i with
    | none => none
    | some st₁ => splitWalk st₁ rest

/-- `split_into_blocks`: start with an `entry` block, then walk the flat
instruction list. -/
def splitIntoBlocks (f : IrFunction) (bril_func : BrilFunction) : Option IrFunction :=
  match splitWalk (f.add_block "entry") bril_func.instrs with
  | some (f₁, _) => some f₁
  | none => none

/-- The body of the `wire_block_edges` loop for one block index. `none`
models the `unwrap` panic on an unresolved branch or jump label. -/
def wireStep (f : IrFunction) (curr_block_idx : Nat) : Option IrFunction :=
  match ((f.blocks.get? curr_block_idx).map IrBasicBlock.instrs).getD [] |>.getLast? with
  | none => some f
  | some terminator =>
    match terminator with
    | .Br _ then_lbl else_lbl =>
        match f.block_index then_lbl, f.block_index else_lbl with
        | some then_idx, some else_idx =>
            some ((f.add_edge curr_block_idx then_idx).add_edge curr_block_idx else_idx)
        | _, _ => none
    | .Jmp label =>
        match f.block_index label with
        | some target_idx => some (f.add_edge curr_block_idx target_idx)
        | none => none
    | .Ret _ => some f
    | _ =>
        if curr_block_idx + 1 < f.blocks.length - 1 then
          some (f.add_edge curr_block_idx (curr_block_idx + 1))
        else
          some f

/-- The loop of `wire_block_edges` over the block indices. -/
def wireWalk (f : IrFunction) : List Nat → Option IrFunction
  | [] => some f
  | c :: rest =>
    match wireStep f c with
    | none => none
    | some f₁ => wireWalk f₁ rest

/-- `wire_block_edges`: wire successor/predecessor edges per block
(`for curr_block_idx in 0..func.blocks.len()`). -/
def wireBlockEdges (f : IrFunction) : Option IrFunction :=
  wireWalk f (List.range f.blocks.length)

/-- `convert_to_cfg`: split into blocks, then wire edges. -/
def convertToCfg (func : BrilFunction) : Option IrFunction :=
  match splitIntoBlocks (IrFunction.new func.name) func with
  | some f => wireBlockEdges f
  | none => none

/-! ### Concrete inputs for the CFG claims -/

/-- A two-block function whose first (second-to-last) block ends in a
non-terminator: `entry: c = const 1` then `l1: d = const 2`. -/
def fallThroughFn : BrilFunction :=
  { name := "main"
    args := []
    instrs :=
      [ BrilInstr.Op (Op.Const "c" "int" (Literal.Int 1))
      , BrilInstr.Label "l1"
      , BrilInstr.Op (Op.Const "d" "int" (Literal.Int 2)) ]
    ret_typ := none }

/-- A function whose single instruction jumps to a label no block carries. -/
def unknownLabelFn : BrilFunction :=
  { name := "main"
    args := []
    instrs := [ BrilInstr.Op (Op.Jmp ["missing"]) ]
    ret_typ := none }

/-- C1: the spec requires a fall-through edge to the textually next block for
every block ending in a non-terminator; on `fallThroughFn` the builder
produces two blocks, yet the guard `curr + 1 < blocks.len() - 1` leaves the
second-to-last block with no successor, so the fall-through edge to the last
block that the claim requires is missing. -/
theorem c1_fallthrough_missing :
    (convertToCfg fallThroughFn).map (fun g => (g.blocks.length, g.succsOf 0, g.predsOf 1))
      = some (2, [], []) := by
  rfl

/-- C9: on a `jmp` to a label that no block carries, `wire_block_edges` hits
`Option::unwrap` on a `None` block index and panics (modelled by `none`); no
"unresolved label" error value is constructed or surfaced to the driver. -/
theorem c9_unknown_label_panics :
    convertToCfg unknownLabelFn = none := by
  rfl

/-! ## bril-ir: dominators, dominance frontier, dominator tree (ssa.rs) -/

/-- The two-finger intersection inside `compute_idom`: repeatedly climb the
greater-indexed finger through `idom_vec` until the fingers agree. `idom_vec`
entries are `Option Nat`, `none` modelling the `usize::MAX` "unknown"
sentinel; climbing into an unknown entry is a failure, and the explicit fuel
returns `none` instead of looping forever. -/
def twoFinger (idom_vec : List (Option Nat)) : Nat → Nat → Nat → Option Nat
  | 0, _, _ => none
  | fuel + 1, finger1, finger2 =>
    if finger1 = finger2 then some finger1
    else if finger2 < finger1 then
      match (idom_vec.get? finger1).getD none with
      | some f₁ => twoFinger idom_vec fuel f₁ finger2
      | none => none
    else
      match (idom_vec.get? finger2).getD none with
      | some f₂ => twoFinger idom_vec fuel finger1 f₂
      | none => none

/-- The body of `compute_idom`'s fixed-point pass for one non-entry block
`b`: seed with the first predecessor whose idom is known, intersect with the
other known-idom predecessors, and record whether the entry changed. -/
def idomStep (preds : List (List Nat)) (tf_fuel : Nat)
    (state : List (Option Nat) × Bool) (b : Nat) : Option (List (Option Nat) × Bool) :=
  let idom_vec := state.1
  let ps := preds.getD b []
  if ps = [] then some state
  else
    match ps.find? (fun p => (idom_vec.getD p none).isSome) with
    | none => some state
    | some seed =>
      let others := ps.filter (fun p => p ≠ seed ∧ (idom_vec.getD p none).isSome)
      match others.foldlM (fun new_idom p => twoFinger idom_vec tf_fuel p new_idom) seed with
      | none => none
      | some new_idom =>
        if idom_vec.getD b none ≠ some new_idom then
          some (idom_vec.set b (some new_idom), true)
        else
          some state

/-- One full pass of the `compute_idom` fixed-point loop over blocks
`1 .. n-1` in index order. -/
def idomPass (preds : List (List Nat)) (n tf_fuel : Nat)
    (idom_vec : List (Option Nat)) : Option (List (Option Nat) × Bool) :=
  (List.range' 1 (n - 1)).foldlM (idomStep preds tf_fuel) (idom_vec, false)

/-- The `compute_idom` fixed-point loop, with fuel bounding the number of
passes (the Rust loop stops at the first unchanged pass). -/
def idomLoop (preds : List (List Nat)) (n tf_fuel : Nat) :
    Nat → List (Option Nat) → Option (List (Option Nat))
  | 0, _ => none
  | fuel + 1, idom_vec =>
    match idomPass preds n tf_fuel idom_vec with
    | none => none
    | some (v, changed) => if changed then idomLoop preds n tf_fuel fuel v else some v

/-- `SSAFormation::compute_idom`: initialise `idom[0] = 0`, run the loop to a
fixed point, then require every entry to be known (the Rust code panics on a
remaining `usize::MAX`). The fuel `n + 1` covers any run that reaches its
fixed point within `n` passes, which every terminating concrete case here
does. -/
def computeIdom (func : IrFunction) : Option (List Nat) :=
  let n := func.blocks.length
  let preds := func.blocks.map IrBasicBlock.preds
  let init := (List.replicate n (none : Option Nat)).set 0 (some 0)
  match idomLoop preds n (n + 1) (n + 1) init with
  | none => none
  | some v => v.mapM id

/-- The runner climb inside `compute_df`: from a predecessor `p` of the join
block `b`, walk `runner` up the idom chain until it reaches `idom[b]`, adding
`b` to `DF(runner)` (deduplicated) along the way. -/
def dfRunner (idom_vec : List Nat) (idom_b b : Nat) :
    Nat → Nat → List (Nat × List Nat) → Option (List (Nat × List Nat))
  | 0, _, _ => none
  | fuel + 1, runner, df =>
    if runner = idom_b then some df
    else
      let entry := (alookup runner df).getD []
      let df₁ := if b ∈ entry then df else assocSet df runner (entry ++ [b])
      match idom_vec.get? runner with
      | none => none
      | some r₁ => dfRunner idom_vec idom_b b fuel r₁ df₁

/-- `SSAFormation::compute_df`: for every join block (two or more
predecessors), run the runner climb from each predecessor. The `BTreeMap` of
frontiers is an association list; `block_index(label).unwrap()` and the
`expect`/`unwrap` on missing idom entries are `none`. -/
def computeDf (func : IrFunction) (idom_vec : List Nat) : Option (List (Nat × List Nat)) :=
  func.blocks.foldlM
    (fun df block =>
      match func.block_index block.label with
      | none => none
      | some b =>
        if block.preds.length < 2 then some df
        else
          match idom_vec.get? b with
          | none => none
          | some idom_b =>
            block.preds.foldlM
              (fun df p => dfRunner idom_vec idom_b b (idom_vec.length + 1) p df)
              df)
    []

/-- `SSAFormation::build_dom_tree`: children-of-parent map from `idom`,
excluding the entry's self-loop. The Rust `HashMap` iteration order is
unspecified; blocks are visited in index order here, so the child lists are
the claim's child sets enumerated ascending. -/
def buildDomTree (idom_vec : List Nat) : List (Nat × List Nat) :=
  (List.range idom_vec.length).foldl
    (fun tree b =>
      let p := idom_vec.getD b 0
      if b ≠ p then assocSet tree p ((alookup p tree).getD [] ++ [b]) else tree)
    []

/-- The 5-node diamond CFG `0→1→{2,3}→4→5` of the specification's dominator
test, as an `IrFunction` (instruction contents are irrelevant to the
dominance computations). -/
def diamondFn : IrFunction :=
  { name := "diamond"
    args := []
    blocks :=
      [ { label := "b0", instrs := [], preds := [], succs := [1] }
      , { label := "b1", instrs := [], preds := [0], succs := [2, 3] }
      , { label := "b2", instrs := [], preds := [1], succs := [4] }
      , { label := "b3", instrs := [], preds := [1], succs := [4] }
      , { label := "b4", instrs := [], preds := [2, 3], succs := [5] }
      , { label := "b5", instrs := [], preds := [4], succs := [] } ]
    label_to_idx :=
      [("b0", 0), ("b1", 1), ("b2", 2), ("b3", 3), ("b4", 4), ("b5", 5)] }

/-- C5: on the 5-node diamond `0→1→{2,3}→4→5`, `compute_idom` yields
`idom = {0:0, 1:0, 2:1, 3:1, 4:1, 5:4}`, `compute_df` yields `DF(2) = [4]`
and `DF(3) = [4]` (and no other frontier entries), and the dominator tree has
children `{2,3,4}` under block 1 and `{5}` under block 4. -/
theorem c5_diamond_dominators :
    computeIdom diamondFn = some [0, 0, 1, 1, 1, 4]
    ∧ computeDf diamondFn [0, 0, 1, 1, 1, 4] = some [(2, [4]), (3, [4])]
    ∧ alookup 1 (buildDomTree [0, 0, 1, 1, 1, 4]) = some [2, 3, 4]
    ∧ alookup 4 (buildDomTree [0, 0, 1, 1, 1, 4]) = some [5] := by
  refine ⟨by rfl, by rfl, by rfl, by rfl⟩

/-! ## bril-passes: constant folding (constant_folding.rs) -/

/-- Left-to-right effectful map, the embedding of a `for ... in iter_mut()`
loop whose body can panic: the first panic (`none`) aborts the walk. -/
def mapOptionList (g : α → Option β) : List α → Option (List β)
  | [] => some []
  | a :: t =>
    match g a with
    | none => none
    | some b =>
      match mapOptionList g t with
      | none => none
      | some bs => some (b :: bs)

/-- The loop body of `ConstantFoldPass::run_on_function` for one
instruction: an `Add` parses both operands with `.parse::<i64>().unwrap()`
(the right operand first, as in the source; a parse failure is the `unwrap`
panic, `none`) and is replaced by `Const(dest, left + right)`; the `Mul` arm
is an empty stub and every other instruction falls to the catch-all, both
leaving the instruction unchanged. -/
def foldInstr : IrInstruction → Option IrInstruction
  | .Add dest lhs rhs =>
      match parseI64 rhs, parseI64 lhs with
      | some right, some left => some (.Const dest (.Int (wrap64 (left + right))))
      | _, _ => none
  | instr => some instr

/-- `ConstantFoldPass::run_on_function`: fold every instruction of every
block in place and report `changed = true` unconditionally. -/
def ConstantFoldPass.run_on_function (function : IrFunction) : Option (IrFunction × Bool) :=
  match mapOptionList
      (fun block =>
        match mapOptionList foldInstr block.instrs with
        | some instrs => some { block with instrs := instrs }
        | none => none)
      function.blocks with
  | some blocks => some ({ function with blocks := blocks }, true)
  | none => none

/-- Decidable well-formedness used by the amended folding claim: every `Add`
instruction's operands parse as `i64` literals. -/
def addOperandsLit : IrInstruction → Bool
  | .Add _ lhs rhs => (parseI64 lhs).isSome && (parseI64 rhs).isSome
  | _ => true

/-- Relation between an input instruction and its folded form: an `Add` with
literal operands becomes the `Const` of their wrapping sum; everything else
is unchanged. -/
def foldRel (i i₁ : IrInstruction) : Prop :=
  (∃ d l r a b, i = .Add d l r ∧ parseI64 l = some a ∧ parseI64 r = some b
      ∧ i₁ = .Const d (.Int (wrap64 (a + b))))
  ∨ ((∀ d l r, i ≠ .Add d l r) ∧ i₁ = i)

theorem foldInstr_spec (i : IrInstruction) (h : addOperandsLit i = true) :
    ∃ i₁, foldInstr i = some i₁ ∧ foldRel i i₁ := by
  cases i with
  | Add d l r =>
      rcases Bool.and_eq_true _ _ |>.mp h with ⟨hl, hr⟩
      rcases Option.isSome_iff_exists.mp hl with ⟨a, ha⟩
      rcases Option.isSome_iff_exists.mp hr with ⟨b, hb⟩
      refine ⟨.Const d (.Int (wrap64 (a + b))), ?_, ?_⟩
      · simp [foldInstr, ha, hb]
      · exact Or.inl ⟨d, l, r, a, b, rfl, ha, hb, rfl⟩
  | Mul d l r => exact ⟨_, rfl, Or.inr ⟨(fun _ _ _ h => nomatch h), rfl⟩⟩
  | Sub d l r => exact ⟨_, rfl, Or.inr ⟨(fun _ _ _ h => nomatch h), rfl⟩⟩
  | Div d l r => exact ⟨_, rfl, Or.inr ⟨(fun _ _ _ h => nomatch h), rfl⟩⟩
  | Eq d l r => exact ⟨_, rfl, Or.inr ⟨(fun _ _ _ h => nomatch h), rfl⟩⟩
  | Lt d l r => exact ⟨_, rfl, Or.inr ⟨(fun _ _ _ h => nomatch h), rfl⟩⟩
  | Gt d l r => exact ⟨_, rfl, Or.inr ⟨(fun _ _ _ h => nomatch h), rfl⟩⟩
  | Ge d l r => exact ⟨_, rfl, Or.inr ⟨(fun _ _ _ h => nomatch h), rfl⟩⟩
  | Le d l r => exact ⟨_, rfl, Or.inr ⟨(fun _ _ _ h => nomatch h), rfl⟩⟩
  | Not d a => exact ⟨_, rfl, Or.inr ⟨(fun _ _ _ h => nomatch h), rfl⟩⟩
  | Or d l r => exact ⟨_, rfl, Or.inr ⟨(fun _ _ _ h => nomatch h), rfl⟩⟩
  | And d l r => exact ⟨_, rfl, Or.inr ⟨(fun _ _ _ h => nomatch h), rfl⟩⟩
  | Call f a d => exact ⟨_, rfl, Or.inr ⟨(fun _ _ _ h => nomatch h), rfl⟩⟩
  | Br c t e => exact ⟨_, rfl, Or.inr ⟨(fun _ _ _ h => nomatch h), rfl⟩⟩
  | Jmp l => exact ⟨_, rfl, Or.inr ⟨(fun _ _ _ h => nomatch h), rfl⟩⟩
  | Ret a => exact ⟨_, rfl, Or.inr ⟨(fun _ _ _ h => nomatch h), rfl⟩⟩
  | Phi d s => exact ⟨_, rfl, Or.inr ⟨(fun _ _ _ h => nomatch h), rfl⟩⟩
  | Const d v => exact ⟨_, rfl, Or.inr ⟨(fun _ _ _ h => nomatch h), rfl⟩⟩
  | Print v => exact ⟨_, rfl, Or.inr ⟨(fun _ _ _ h => nomatch h), rfl⟩⟩
  | Assign l r => exact ⟨_, rfl, Or.inr ⟨(fun _ _ _ h => nomatch h), rfl⟩⟩

theorem mapOptionList_foldInstr (l : List IrInstruction)
    (h : ∀ i ∈ l, addOperandsLit i = true) :
    ∃ l₁, mapOptionList foldInstr l = some l₁ ∧ List.Forall₂ foldRel l l₁ := by
  induction l with
  | nil => exact ⟨[], rfl, List.Forall₂.nil⟩
  | cons i t ih =>
      rcases foldInstr_spec i (h i (List.mem_cons_self i t)) with ⟨i₁, hi, hrel⟩
      rcases ih (fun j hj => h j (List.mem_cons_of_mem i hj)) with ⟨t₁, ht, htrel⟩
      exact ⟨i₁ :: t₁, by simp [mapOptionList, hi, ht], List.Forall₂.cons hrel htrel⟩

/-- Pointwise relation between an input block and its folded form. -/
def foldBlockRel (bl bl₁ : IrBasicBlock) : Prop :=
  bl₁.label = bl.label ∧ bl₁.preds = bl.preds ∧ bl₁.succs = bl.succs
    ∧ List.Forall₂ foldRel bl.instrs bl₁.instrs

/-- C3 (amended): on a function in which every `Add` has literal operands,
the pass succeeds and replaces exactly the `Add` instructions, each with
`Const(dest, a + b)` under wrapping 64-bit addition; `Mul`, `Sub`, `Div` and
all other instructions are left unchanged. -/
theorem c3_fold_adds_only (f : IrFunction)
    (h : ∀ bl ∈ f.blocks, ∀ i ∈ bl.instrs, addOperandsLit i = true) :
    ∃ blocks₁, ConstantFoldPass.run_on_function f = some ({ f with blocks := blocks₁ }, true)
      ∧ List.Forall₂ foldBlockRel f.blocks blocks₁ := by
  have main : ∀ bs : List IrBasicBlock, (∀ bl ∈ bs, ∀ i ∈ bl.instrs, addOperandsLit i = true) →
      ∃ bs₁, mapOptionList
          (fun block =>
            match mapOptionList foldInstr block.instrs with
            | some instrs => some { block with instrs := instrs }
            | none => none) bs = some bs₁ ∧ List.Forall₂ foldBlockRel bs bs₁ := by
    intro bs hbs
    induction bs with
    | nil => exact ⟨[], rfl, List.Forall₂.nil⟩
    | cons bl t ih =>
        rcases mapOptionList_foldInstr bl.instrs (hbs bl (List.mem_cons_self bl t)) with
          ⟨instrs₁, hbl, hblrel⟩
        rcases ih (fun b hb => hbs b (List.mem_cons_of_mem bl hb)) with ⟨t₁, ht, htrel⟩
        refine ⟨{ bl with instrs := instrs₁ } :: t₁, ?_, ?_⟩
        · simp [mapOptionList, hbl, ht]
        · exact List.Forall₂.cons ⟨rfl, rfl, rfl, hblrel⟩ htrel
  rcases main f.blocks h with ⟨bs₁, hmap, hrel⟩
  exact ⟨bs₁, by simp [ConstantFoldPass.run_on_function, hmap], hrel⟩

/-- A function whose single instruction is a `Mul` of two integer literals. -/
def mulLitFn : IrFunction :=
  { name := "main", args := []
    blocks := [{ label := "entry", instrs := [IrInstruction.Mul "d" "2" "3"],
                 preds := [], succs := [] }]
    label_to_idx := [("entry", 0)] }

/-- C3 counterexample: the claim requires the `Mul` of literals `2` and `3`
to become `Const(d, 6)`, but the pass returns the function unchanged: the
single instruction is still the `Mul`, not the `Const`. -/
theorem c3_mul_not_folded :
    ConstantFoldPass.run_on_function mulLitFn = some (mulLitFn, true)
    ∧ (mulLitFn.blocks.getD 0 default).instrs ≠ [IrInstruction.Const "d" (Literal.Int 6)] := by
  exact ⟨by rfl, by decide⟩

/-- A function whose single instruction is an `Add` of two variables whose
names are not integer literals. -/
def addVarsFn : IrFunction :=
  { name := "main", args := []
    blocks := [{ label := "entry", instrs := [IrInstruction.Add "c" "a" "b"],
                 preds := [], succs := [] }]
    label_to_idx := [("entry", 0)] }

/-- C4: on an `Add` whose operands are ordinary variable names, the pass
panics — `"b".parse::<i64>().unwrap()` fails — instead of leaving the
instruction unchanged, so `run_on_function` does fail on well-formed IR. -/
theorem c4_fold_panics_on_variables :
    ConstantFoldPass.run_on_function addVarsFn = none := by
  rfl

/-- Witness for the amended folding claim at a concrete function containing
an `Add` of literals `2` and `3` and a `Jmp`. -/
def addLitFn : IrFunction :=
  { name := "main", args := []
    blocks := [{ label := "entry",
                 instrs := [IrInstruction.Add "c" "2" "3", IrInstruction.Jmp "entry"],
                 preds := [], succs := [] }]
    label_to_idx := [("entry", 0)] }

theorem c3_fold_adds_only_witness :
    ∃ blocks₁,
      ConstantFoldPass.run_on_function addLitFn = some ({ addLitFn with blocks := blocks₁ }, true)
      ∧ List.Forall₂ foldBlockRel addLitFn.blocks blocks₁ :=
  c3_fold_adds_only addLitFn (by decide)

/-! ## brilirs interpreter (interp.rs) -/

/-- `interp::Pointer`. -/
structure Pointer where
  base : Nat
  offset : Int
deriving DecidableEq, Repr

/-- `interp::Value`. The `f64` payload of `Float` is opaque to every claim
here and is carried as its 64-bit pattern. -/
inductive Value
  | Int (i : Int)
  | Bool (b : Bool)
  | Float (bits : Nat)
  | Char (c : Char)
  | Pointer (p : Pointer)
  | Uninitialized
deriving DecidableEq, Repr

/-- `#[default] Uninitialized`. -/
instance : Inhabited Value := ⟨Value.Uninitialized⟩

/-- The `error::InterpError` variants the embedded interpreter code
constructs. -/
inductive InterpError
  | DivisionByZero
  | IllegalFree (base : Nat) (offset : Int)
  | InvalidMemoryAccess (base : Nat) (offset : Int)
  | CannotAllocSize (i : Int)
  | UsingUninitializedMemory
deriving DecidableEq, Repr

/-- `interp::Environment`. -/
structure Environment where
  current_pointer : Nat
  current_frame_size : Nat
  stack_pointers : List (Nat × Nat)
  env : List Value
deriving DecidableEq, Repr

/-- `Environment::new`. -/
def Environment.new (size : Nat) : Environment :=
  { current_pointer := 0
    current_frame_size := size
    stack_pointers := []
    env := List.replicate (max size 50) default }

/-- `Environment::get` (`env.get(...).unwrap()`: `none` is the panic). -/
def Environment.get (e : Environment) (ident : Nat) : Option Value :=
  e.env.get? (e.current_pointer + ident)

/-- `Environment::set` (`env[idx] = val`; in-range in every claim here). -/
def Environment.set (e : Environment) (ident : Nat) (val : Value) : Environment :=
  { e with env := e.env.set (e.current_pointer + ident) val }

/-- `Environment::push_frame`: stash the current frame, advance the frame
pointer, and when the new frame overruns the backing vector, resize it to
`max(len * 4, current_pointer + current_frame_size)`. -/
def Environment.push_frame (e : Environment) (size : Nat) : Environment :=
  let e₁ : Environment :=
    { e with
        stack_pointers := e.stack_pointers ++ [(e.current_pointer, e.current_frame_size)]
        current_pointer := e.current_pointer + e.current_frame_size
        current_frame_size := size }
  if e₁.current_pointer + e₁.current_frame_size > e₁.env.length then
    { e₁ with
        env := listResize e₁.env
          (max (e₁.env.length * 4) (e₁.current_pointer + e₁.current_frame_size)) default }
  else e₁

/-- `interp::Heap`: map from base to the allocation's cells, plus the fresh
base counter. -/
structure Heap where
  memory : List (Nat × List Value)
  base_num_counter : Nat
deriving DecidableEq, Repr

/-- `Heap::free`: `if self.memory.remove(&key.base).is_some() && key.offset == 0`.
The `remove` runs unconditionally before the short-circuit check, so the
allocation is gone from the returned heap on every path. -/
def Heap.free (h : Heap) (key : Pointer) : Except InterpError Unit × Heap :=
  let removed := (alookup key.base h.memory).isSome
  let h₁ : Heap := { h with memory := assocRemove key.base h.memory }
  if removed ∧ key.offset = 0 then (Except.ok (), h₁)
  else (Except.error (InterpError.IllegalFree key.base key.offset), h₁)

/-- `get_arg::<i64>`: index into `args`, read the variable, and demand an
`Int` (the `From<&Value> for i64` impl hits `unreachable!` otherwise). -/
def getArgI64 (vars : Environment) (index : Nat) (args : List Nat) : Option Int :=
  match args.get? index with
  | none => none
  | some ident =>
    match vars.get ident with
    | some (Value.Int i) => some i
    | _ => none

/-- The `Div` arm of `execute_value_op`: error on a zero divisor, otherwise
store the wrapping quotient. -/
def executeDiv (state_env : Environment) (dest : Nat) (args : List Nat) :
    Option (Except InterpError Environment) :=
  match getArgI64 state_env 0 args, getArgI64 state_env 1 args with
  | some arg0, some arg1 =>
      if arg1 = 0 then some (Except.error InterpError.DivisionByZero)
      else some (Except.ok (state_env.set dest (Value.Int (wrappingDiv arg0 arg1))))
  | _, _ => none

theorem listResize_length (l : List α) (n : Nat) (v : α) : (listResize l n v).length = n := by
  unfold listResize
  split
  · simpa using by omega
  · simp
    omega

/-- C6: the integer `div` arm raises `DivisionByZero` exactly when the
divisor is 0; otherwise it succeeds and the destination holds the wrapping
64-bit signed quotient. -/
theorem c6_div_by_zero (env : Environment) (dest : Nat) (args : List Nat) (a b : Int)
    (h0 : getArgI64 env 0 args = some a) (h1 : getArgI64 env 1 args = some b)
    (hd : env.current_pointer + dest < env.env.length) :
    (executeDiv env dest args = some (Except.error InterpError.DivisionByZero) ↔ b = 0)
    ∧ (b ≠ 0 → ∃ env₁, executeDiv env dest args = some (Except.ok env₁)
        ∧ env₁.get dest = some (Value.Int (wrappingDiv a b))) := by
  constructor
  · by_cases hb : b = 0
    · simp [executeDiv, h0, h1, hb]
    · simp [executeDiv, h0, h1, hb]
  · intro hb
    refine ⟨env.set dest (Value.Int (wrappingDiv a b)), ?_, ?_⟩
    · simp [executeDiv, h0, h1, hb]
    · simp [Environment.get, Environment.set, List.getElem?_set_eq_of_lt _ hd]

/-- Witness for C6 at a two-variable frame holding 7 and 2. -/
def envDiv : Environment :=
  { current_pointer := 0, current_frame_size := 2, stack_pointers := []
    env := [Value.Int 7, Value.Int 2] }

theorem c6_div_by_zero_witness :
    (executeDiv envDiv 0 [0, 1] = some (Except.error InterpError.DivisionByZero) ↔ (2 : Int) = 0)
    ∧ ((2 : Int) ≠ 0 → ∃ env₁, executeDiv envDiv 0 [0, 1] = some (Except.ok env₁)
        ∧ env₁.get 0 = some (Value.Int (wrappingDiv 7 2))) :=
  c6_div_by_zero envDiv 0 [0, 1] 7 2 rfl rfl (by decide)

/-- C8 counterexample: starting from `Environment::new(50)` (backing length
50), pushing a frame of 60 variables resizes the backing vector to 200 —
quadrupling — where the claimed doubling rule would give
`max(2 * 50, 110) = 110`. -/
theorem c8_not_doubling :
    ((Environment.new 50).push_frame 60).env.length = 200
    ∧ ((Environment.new 50).push_frame 60).env.length
        ≠ max (2 * (Environment.new 50).env.length) (0 + 50 + 60) := by
  exact ⟨by rfl, by decide⟩

/-- C8 (amended): when the new frame overruns the backing vector, the vector
grows by quadrupling — the new length is `max(4 * old length, minimum length
needed for the new frame)`. -/
theorem c8_push_frame_quadruples (e : Environment) (size : Nat)
    (h : e.env.length < e.current_pointer + e.current_frame_size + size) :
    (e.push_frame size).env.length
      = max (e.env.length * 4) (e.current_pointer + e.current_frame_size + size) := by
  unfold Environment.push_frame
  simp only
  rw [if_pos (by simpa using h)]
  simpa using listResize_length _ _ _

theorem c8_push_frame_quadruples_witness :
    ((Environment.new 50).push_frame 60).env.length
      = max ((Environment.new 50).env.length * 4)
          ((Environment.new 50).current_pointer + (Environment.new 50).current_frame_size + 60) :=
  c8_push_frame_quadruples (Environment.new 50) 60 (by decide)

theorem alookup_eq_none_of_not_mem [DecidableEq α] (k : α) (l : List (α × β))
    (h : k ∉ l.map Prod.fst) : alookup k l = none := by
  induction l with
  | nil => rfl
  | cons p t ih =>
      simp only [List.map_cons, List.mem_cons] at h
      push_neg at h
      simp [alookup, Ne.symm h.1, ih h.2]

theorem alookup_assocRemove_self [DecidableEq α] (k : α) (l : List (α × β))
    (hnd : (l.map Prod.fst).Nodup) :
    alookup k (assocRemove k l) = none := by
  induction l with
  | nil => rfl
  | cons p t ih =>
      simp only [List.map_cons, List.nodup_cons] at hnd
      by_cases hk : p.1 = k
      · rw [assocRemove, if_pos hk]
        exact alookup_eq_none_of_not_mem k t (hk ▸ hnd.1)
      · rw [assocRemove, if_neg hk]
        simp [alookup, hk, ih hnd.2]

/-- C10: `Heap::free` returns `Ok` exactly when the base is allocated and the
offset is 0, and on an allocated base with a nonzero offset it returns
`IllegalFree` while nevertheless having removed the allocation (the `remove`
precedes the short-circuited offset check). -/
theorem c10_free_removes_on_error (h : Heap) (key : Pointer)
    (hnd : (h.memory.map Prod.fst).Nodup) :
    ((h.free key).1 = Except.ok () ↔ ((alookup key.base h.memory).isSome ∧ key.offset = 0))
    ∧ ((alookup key.base h.memory).isSome → key.offset ≠ 0 →
        (h.free key).1 = Except.error (InterpError.IllegalFree key.base key.offset)
        ∧ alookup key.base (h.free key).2.memory = none) := by
  constructor
  · by_cases hc : (alookup key.base h.memory).isSome ∧ key.offset = 0
    · simp [Heap.free, hc]
    · simp only [Heap.free, if_neg hc]
      simpa using hc
  · intro hsome hoff
    have hc : ¬ ((alookup key.base h.memory).isSome ∧ key.offset = 0) := by
      intro hcontra
      exact hoff hcontra.2
    refine ⟨by simp [Heap.free, hc], ?_⟩
    simp only [Heap.free, if_neg hc]
    exact alookup_assocRemove_self key.base h.memory hnd

/-- Witness for C10: freeing `Pointer{base: 0, offset: 1}` on a heap holding
one allocation at base 0. -/
def heapOne : Heap := { memory := [(0, [Value.Int 1])], base_num_counter := 1 }

theorem c10_free_removes_on_error_witness :
    (heapOne.free ⟨0, 1⟩).1 = Except.error (InterpError.IllegalFree 0 1)
    ∧ alookup 0 (heapOne.free ⟨0, 1⟩).2.memory = none :=
  (c10_free_removes_on_error heapOne ⟨0, 1⟩ (by decide)).2 (by decide) (by decide)

/-! ## CFG edge symmetry (claim C7) -/

/-- The specification's CFG consistency invariant. -/
def symEdges (f : IrFunction) : Prop :=
  ∀ a b, b ∈ f.succsOf a ↔ a ∈ f.predsOf b

/-- Every block's edge lists are empty (the state `split_into_blocks`
leaves the function in). -/
def edgesEmpty (f : IrFunction) : Prop :=
  ∀ bl ∈ f.blocks, bl.preds = [] ∧ bl.succs = []

/-- Every index the label map stores is in range. -/
def labelMapValid (f : IrFunction) : Prop :=
  ∀ p ∈ f.label_to_idx, p.2 < f.blocks.length

theorem listUpd_length (l : List α) (n : Nat) (g : α → α) :
    (listUpd l n g).length = l.length := by
  induction l generalizing n with
  | nil => rfl
  | cons a t ih =>
      cases n with
      | zero => rfl
      | succ m => simpa [listUpd] using ih m

theorem get?_listUpd (l : List α) (n m : Nat) (g : α → α) :
    (listUpd l n g).get? m = if m = n then (l.get? m).map g else l.get? m := by
  induction l generalizing n m with
  | nil => simp [listUpd]
  | cons a t ih =>
      cases n with
      | zero =>
          cases m with
          | zero => simp [listUpd]
          | succ k => simp [listUpd]
      | succ n₁ =>
          cases m with
          | zero => simp [listUpd]
          | succ k => simpa [listUpd] using ih n₁ k

theorem mem_listUpd (l : List α) (n : Nat) (g : α → α) (b : α) (hb : b ∈ listUpd l n g) :
    b ∈ l ∨ ∃ a ∈ l, b = g a := by
  induction l generalizing n with
  | nil => simp [listUpd] at hb
  | cons a t ih =>
      cases n with
      | zero =>
          rcases List.mem_cons.mp hb with h | h
          · exact Or.inr ⟨a, List.mem_cons_self a t, h⟩
          · exact Or.inl (List.mem_cons_of_mem a h)
      | succ m =>
          rcases List.mem_cons.mp hb with h | h
          · exact Or.inl (h ▸ List.mem_cons_self a t)
          · rcases ih m h with h₁ | ⟨c, hc, hbc⟩
            · exact Or.inl (List.mem_cons_of_mem a h₁)
            · exact Or.inr ⟨c, List.mem_cons_of_mem a hc, hbc⟩

theorem add_edge_blocks_length (f : IrFunction) (a b : Nat) :
    (f.add_edge a b).blocks.length = f.blocks.length := by
  simp [IrFunction.add_edge, listUpd_length]

theorem succsOf_add_edge (f : IrFunction) (a b : Nat) (ha : a < f.blocks.length) (x : Nat) :
    (f.add_edge a b).succsOf x = if x = a then f.succsOf x ++ [b] else f.succsOf x := by
  unfold IrFunction.succsOf IrFunction.add_edge
  simp only [get?_listUpd]
  by_cases hxa : x = a
  · subst hxa
    obtain ⟨bl, hbl⟩ : ∃ bl, f.blocks[x]? = some bl :=
      ⟨_, List.getElem?_eq_getElem ha⟩
    by_cases hxb : x = b
    · subst hxb
      simp [hbl]
    · simp [hbl, hxb]
  · by_cases hxb : x = b
    · subst hxb
      cases hget : f.blocks.get? x <;> simp [hget, hxa]
    · simp [hxa, hxb]

theorem predsOf_add_edge (f : IrFunction) (a b : Nat) (hb : b < f.blocks.length) (x : Nat) :
    (f.add_edge a b).predsOf x = if x = b then f.predsOf x ++ [a] else f.predsOf x := by
  unfold IrFunction.predsOf IrFunction.add_edge
  simp only [get?_listUpd]
  by_cases hxb : x = b
  · subst hxb
    obtain ⟨bl, hbl⟩ : ∃ bl, f.blocks[x]? = some bl :=
      ⟨_, List.getElem?_eq_getElem hb⟩
    by_cases hxa : x = a
    · subst hxa
      simp [hbl]
    · simp [hbl, hxa]
  · by_cases hxa : x = a
    · subst hxa
      cases hget : f.blocks.get? x <;> simp [hget, hxb]
    · simp [hxa, hxb]

theorem add_edge_sym (f : IrFunction) (a b : Nat)
    (ha : a < f.blocks.length) (hb : b < f.blocks.length)
    (hs : symEdges f) : symEdges (f.add_edge a b) := by
  intro x y
  rw [succsOf_add_edge f a b ha x, predsOf_add_edge f a b hb y]
  by_cases hx : x = a <;> by_cases hy : y = b
  · subst hx
    subst hy
    rw [if_pos rfl, if_pos rfl]
    simp [List.mem_append]
  · subst hx
    rw [if_pos rfl, if_neg hy]
    simp only [List.mem_append, List.mem_singleton, hy, or_false]
    exact hs x y
  · subst hy
    rw [if_neg hx, if_pos rfl]
    simp only [List.mem_append, List.mem_singleton, hx, or_false]
    exact hs x y
  · rw [if_neg hx, if_neg hy]
    exact hs x y

theorem add_edge_labelMapValid (f : IrFunction) (a b : Nat) (hv : labelMapValid f) :
    labelMapValid (f.add_edge a b) := by
  intro p hp
  rw [add_edge_blocks_length]
  exact hv p hp

theorem alookup_mem [DecidableEq α] (k : α) (l : List (α × β)) (v : β)
    (h : alookup k l = some v) : (k, v) ∈ l := by
  induction l with
  | nil => cases h
  | cons p t ih =>
      obtain ⟨k₁, v₁⟩ := p
      by_cases hk : k₁ = k
      · simp only [alookup, if_pos hk] at h
        subst hk
        obtain rfl : v₁ = v := Option.some.inj h
        exact List.mem_cons_self _ _
      · simp only [alookup, if_neg hk] at h
        exact List.mem_cons_of_mem _ (ih h)

theorem block_index_lt (f : IrFunction) (l : String) (i : Nat)
    (hv : labelMapValid f) (h : f.block_index l = some i) : i < f.blocks.length :=
  hv (l, i) (alookup_mem l f.label_to_idx i h)

theorem wireStep_props (f g : IrFunction) (curr : Nat)
    (hc : curr < f.blocks.length) (hv : labelMapValid f) (hs : symEdges f)
    (h : wireStep f curr = some g) :
    symEdges g ∧ labelMapValid g ∧ g.blocks.length = f.blocks.length := by
  unfold wireStep at h
  cases hterm : (((f.blocks.get? curr).map IrBasicBlock.instrs).getD []).getLast? with
  | none =>
      rw [hterm] at h
      obtain rfl : f = g := Option.some.inj h
      exact ⟨hs, hv, rfl⟩
  | some t =>
      rw [hterm] at h
      have fallthrough :
          (if curr + 1 < f.blocks.length - 1 then
              some (f.add_edge curr (curr + 1)) else some f) = some g →
          symEdges g ∧ labelMapValid g ∧ g.blocks.length = f.blocks.length := by
        intro hft
        by_cases hg : curr + 1 < f.blocks.length - 1
        · rw [if_pos hg] at hft
          obtain rfl := Option.some.inj hft
          have hlt : curr + 1 < f.blocks.length := by omega
          exact ⟨add_edge_sym f curr (curr + 1) hc hlt hs,
                 add_edge_labelMapValid f curr (curr + 1) hv,
                 add_edge_blocks_length f curr (curr + 1)⟩
        · rw [if_neg hg] at hft
          obtain rfl := Option.some.inj hft
          exact ⟨hs, hv, rfl⟩
      cases t with
      | Br cond then_lbl else_lbl =>
          cases hti : f.block_index then_lbl with
          | none => simp only [hti] at h; exact Option.noConfusion h
          | some then_idx =>
              cases hei : f.block_index else_lbl with
              | none => simp only [hti, hei] at h; exact Option.noConfusion h
              | some else_idx =>
                  simp only [hti, hei] at h
                  obtain rfl := Option.some.inj h
                  have h₁ : then_idx < f.blocks.length := block_index_lt f then_lbl then_idx hv hti
                  have h₂ : else_idx < f.blocks.length := block_index_lt f else_lbl else_idx hv hei
                  have hs₁ := add_edge_sym f curr then_idx hc h₁ hs
                  have hv₁ := add_edge_labelMapValid f curr then_idx hv
                  have hlen₁ := add_edge_blocks_length f curr then_idx
                  refine ⟨add_edge_sym _ curr else_idx (hlen₁ ▸ hc) (hlen₁ ▸ h₂) hs₁,
                          add_edge_labelMapValid _ curr else_idx hv₁, ?_⟩
                  rw [add_edge_blocks_length, hlen₁]
      | Jmp label =>
          cases hti : f.block_index label with
          | none => simp only [hti] at h; exact Option.noConfusion h
          | some target_idx =>
              simp only [hti] at h
              obtain rfl := Option.some.inj h
              have h₁ : target_idx < f.blocks.length := block_index_lt f label target_idx hv hti
              exact ⟨add_edge_sym f curr target_idx hc h₁ hs,
                     add_edge_labelMapValid f curr target_idx hv,
                     add_edge_blocks_length f curr target_idx⟩
      | Ret args =>
          obtain rfl := Option.some.inj h
          exact ⟨hs, hv, rfl⟩
      | Add d l r => exact fallthrough h
      | Mul d l r => exact fallthrough h
      | Sub d l r => exact fallthrough h
      | Div d l r => exact fallthrough h
      | Eq d l r => exact fallthrough h
      | Lt d l r => exact fallthrough h
      | Gt d l r => exact fallthrough h
      | Ge d l r => exact fallthrough h
      | Le d l r => exact fallthrough h
      | Not d a => exact fallthrough h
      | Or d l r => exact fallthrough h
      | And d l r => exact fallthrough h
      | Call f₀ a d => exact fallthrough h
      | Phi d s => exact fallthrough h
      | Const d v => exact fallthrough h
      | Print v => exact fallthrough h
      | Assign l r => exact fallthrough h

theorem wire_fold (l : List Nat) : ∀ f g : IrFunction,
    (∀ c ∈ l, c < f.blocks.length) → labelMapValid f → symEdges f →
    wireWalk f l = some g → symEdges g := by
  induction l with
  | nil =>
      intro f g _ _ hs h
      obtain rfl : f = g := Option.some.inj h
      exact hs
  | cons c t ih =>
      intro f g hl hv hs h
      cases hstep : wireStep f c with
      | none => simp only [wireWalk, hstep] at h; exact Option.noConfusion h
      | some f₁ =>
          simp only [wireWalk, hstep] at h
          obtain ⟨hs₁, hv₁, hlen₁⟩ :=
            wireStep_props f f₁ c (hl c (List.mem_cons_self c t)) hv hs hstep
          exact ih f₁ g (fun d hd => hlen₁ ▸ hl d (List.mem_cons_of_mem c hd)) hv₁ hs₁ h

theorem add_block_props (f : IrFunction) (label : String)
    (he : edgesEmpty f) (hv : labelMapValid f) :
    edgesEmpty (f.add_block label).1 ∧ labelMapValid (f.add_block label).1 := by
  constructor
  · intro bl hbl
    simp only [IrFunction.add_block, List.mem_append, List.mem_singleton] at hbl
    rcases hbl with h | h
    · exact he bl h
    · subst h
      exact ⟨rfl, rfl⟩
  · intro p hp
    simp only [IrFunction.add_block, List.mem_cons] at hp
    simp only [IrFunction.add_block, List.length_append, List.length_singleton]
    rcases hp with h | h
    · subst h
      omega
    · have := hv p h
      omega

theorem append_instr_props (f : IrFunction) (idx : Nat) (i : IrInstruction)
    (he : edgesEmpty f) (hv : labelMapValid f) :
    edgesEmpty (f.append_instr idx i) ∧ labelMapValid (f.append_instr idx i) := by
  constructor
  · intro bl hbl
    simp only [IrFunction.append_instr] at hbl
    rcases mem_listUpd _ _ _ bl hbl with h | ⟨a, ha, rfl⟩
    · exact he bl h
    · simpa using he a ha
  · intro p hp
    simp only [IrFunction.append_instr] at hp
    simp only [IrFunction.append_instr, listUpd_length]
    exact hv p hp

theorem splitStep_props (st st₁ : IrFunction × Nat) (i : BrilInstr)
    (he : edgesEmpty st.1) (hv : labelMapValid st.1)
    (h : splitStep st i = some st₁) : edgesEmpty st₁.1 ∧ labelMapValid st₁.1 := by
  cases i with
  | Label label =>
      obtain rfl := Option.some.inj h
      exact add_block_props st.1 label he hv
  | Op op =>
      cases hop : opToIr op with
      | none => simp only [splitStep, hop] at h; exact Option.noConfusion h
      | some ir =>
          simp only [splitStep, hop] at h
          obtain rfl := Option.some.inj h
          exact append_instr_props st.1 st.2 ir he hv

theorem splitWalk_props (l : List BrilInstr) : ∀ st st₁ : IrFunction × Nat,
    edgesEmpty st.1 → labelMapValid st.1 → splitWalk st l = some st₁ →
    edgesEmpty st₁.1 ∧ labelMapValid st₁.1 := by
  induction l with
  | nil =>
      intro st st₁ he hv h
      obtain rfl := Option.some.inj h
      exact ⟨he, hv⟩
  | cons i t ih =>
      intro st st₁ he hv h
      cases hstep : splitStep st i with
      | none => simp only [splitWalk, hstep] at h; exact Option.noConfusion h
      | some st₂ =>
          simp only [splitWalk, hstep] at h
          obtain ⟨he₂, hv₂⟩ := splitStep_props st st₂ i he hv hstep
          exact ih st₂ st₁ he₂ hv₂ h

theorem splitIntoBlocks_props (f₀ : IrFunction) (bf : BrilFunction) (g : IrFunction)
    (he : edgesEmpty f₀) (hv : labelMapValid f₀)
    (h : splitIntoBlocks f₀ bf = some g) : edgesEmpty g ∧ labelMapValid g := by
  unfold splitIntoBlocks at h
  cases hw : splitWalk (f₀.add_block "entry") bf.instrs with
  | none => rw [hw] at h; exact Option.noConfusion h
  | some st =>
      rw [hw] at h
      obtain rfl : st.1 = g := Option.some.inj h
      obtain ⟨he₁, hv₁⟩ := add_block_props f₀ "entry" he hv
      exact splitWalk_props bf.instrs _ st he₁ hv₁ hw

theorem symEdges_of_edgesEmpty (f : IrFunction) (he : edgesEmpty f) : symEdges f := by
  intro a b
  have hs : f.succsOf a = [] := by
    unfold IrFunction.succsOf
    cases hget : f.blocks.get? a with
    | none => rfl
    | some bl => exact (he bl (List.get?_mem hget)).2
  have hp : f.predsOf b = [] := by
    unfold IrFunction.predsOf
    cases hget : f.blocks.get? b with
    | none => rfl
    | some bl => exact (he bl (List.get?_mem hget)).1
  simp [hs, hp]

/-- C7: every `IrFunction` the CFG builder produces has mutually consistent
edge lists — `b ∈ succs(a) ⇔ a ∈ preds(b)` — and `add_edge` preserves this
symmetry (for in-range block indices, the only ones the builder ever passes;
an out-of-range index panics in the source). -/
theorem c7_edge_symmetry :
    (∀ bf g, convertToCfg bf = some g → ∀ a b, b ∈ g.succsOf a ↔ a ∈ g.predsOf b)
    ∧ (∀ f a b, a < f.blocks.length → b < f.blocks.length → symEdges f →
        ∀ x y, y ∈ (f.add_edge a b).succsOf x ↔ x ∈ (f.add_edge a b).predsOf y) := by
  constructor
  · intro bf g h
    unfold convertToCfg at h
    cases hsplit : splitIntoBlocks (IrFunction.new bf.name) bf with
    | none => rw [hsplit] at h; exact Option.noConfusion h
    | some f₁ =>
        rw [hsplit] at h
        have hne : edgesEmpty (IrFunction.new bf.name) := by
          intro bl hbl
          simp [IrFunction.new] at hbl
        have hnv : labelMapValid (IrFunction.new bf.name) := by
          intro p hp
          simp [IrFunction.new] at hp
        obtain ⟨he₁, hv₁⟩ := splitIntoBlocks_props _ bf f₁ hne hnv hsplit
        exact wire_fold (List.range f₁.blocks.length) f₁ g
          (fun c hc => List.mem_range.mp hc) hv₁ (symEdges_of_edgesEmpty f₁ he₁) h
  · intro f a b ha hb hs
    exact add_edge_sym f a b ha hb hs

/-- A three-block function (entry with a `br`, two labelled `ret` blocks)
used as the concrete input of the C7 witness. -/
def brFn : BrilFunction :=
  { name := "m"
    args := []
    instrs :=
      [ BrilInstr.Op (Op.Br ["c"] ("t", "e"))
      , BrilInstr.Label "t"
      , BrilInstr.Op (Op.Ret [])
      , BrilInstr.Label "e"
      , BrilInstr.Op (Op.Ret []) ]
    ret_typ := none }

def brCfg : IrFunction := (convertToCfg brFn).getD (IrFunction.new "m")

theorem c7_edge_symmetry_witness :
    (1 ∈ brCfg.succsOf 0 ↔ 0 ∈ brCfg.predsOf 1)
    ∧ (2 ∈ (brCfg.add_edge 1 2).succsOf 1 ↔ 1 ∈ (brCfg.add_edge 1 2).predsOf 2) :=
  ⟨c7_edge_symmetry.1 brFn brCfg rfl 0 1,
   c7_edge_symmetry.2 brCfg 1 2 (by decide) (by decide)
     (c7_edge_symmetry.1 brFn brCfg rfl) 1 2⟩

/-! ## riscv-backend: machine IR and live intervals (machine_ir.rs, register_alloc.rs) -/

/-- `machine_ir::VReg`. -/
inductive VReg
  | Virtual (id : Int)
  | T0 | T1 | T2 | T3 | T4 | T5 | T6
  | A0 | A1 | A2 | A3 | A4 | A5 | A6 | A7
  | S0 | S1 | S2 | S3 | S4 | S5 | S6 | S7 | S8 | S9 | S10 | S11
  | RA | SP | FP | GP
deriving DecidableEq, Repr

/-- `machine_ir::MachineInstr`. -/
inductive MachineInstr
  | Addi (rd rs1 : VReg) (imm : Int)
  | Add (rd rs1 rs2 : VReg)
  | Mul (rd rs1 rs2 : VReg)
  | Sub (rd rs1 rs2 : VReg)
  | Div (rd rs1 rs2 : VReg)
  | Li (rd : VReg) (imm : Int)
  | Mv (rd rs1 : VReg)
  | Jal (rd : VReg) (offset : Nat)
  | Jmp (label : String)
  | Beqz (rs1 : VReg) (label : String)
  | Beq (rs1 rs2 : VReg) (label : String)
  | Ret (rd : VReg)
  | Call (func : String)
  | Print (args : List VReg)
deriving DecidableEq, Repr

/-- `MachineInstr::defs`. -/
def MachineInstr.defs : MachineInstr → List VReg
  | .Add rd _ _ | .Addi rd _ _ | .Mul rd _ _ | .Sub rd _ _ | .Div rd _ _
  | .Mv rd _ | .Li rd _ => [rd]
  | _ => []

/-- `MachineInstr::uses`. -/
def MachineInstr.uses : MachineInstr → List VReg
  | .Add _ rs1 rs2 | .Mul _ rs1 rs2 | .Sub _ rs1 rs2 | .Div _ rs1 rs2 => [rs1, rs2]
  | .Beq rs1 rs2 _ => [rs1, rs2]
  | .Addi _ rs1 _ | .Mv _ rs1 => [rs1]
  | _ => []

/-- `machine_ir::MachineBlock`. -/
structure MachineBlock where
  name : String
  instrs : List MachineInstr
  succs : List Nat
deriving DecidableEq, Repr

/-- `machine_ir::MachineFunc`. -/
structure MachineFunc where
  name : String
  args : List VReg
  blocks : List MachineBlock
  label_to_idx : List (String × Nat)
deriving DecidableEq, Repr

/-- The flat instruction order of `build_intervals`: blocks in order, each
block's instructions in order, numbered consecutively (the
`instrs_global_pos` map). -/
def MachineFunc.flatInstrs (mf : MachineFunc) : List MachineInstr :=
  mf.blocks.foldl (fun acc b => acc ++ b.instrs) []

namespace register_alloc

/-- `register_alloc::Interval`. -/
structure Interval where
  start : Nat
  «end» : Nat
deriving DecidableEq, Repr

/-- The `defs` update in `build_intervals`: `entry(d).or_insert({pos, pos})`
followed by `start = min(start, pos)`. -/
def updDef (intervals : List (VReg × Interval)) (d : VReg) (pos : Nat) :
    List (VReg × Interval) :=
  match alookup d intervals with
  | none => assocSet intervals d { start := pos, «end» := pos }
  | some iv => assocSet intervals d { iv with start := min iv.start pos }

/-- The `uses` update in `build_intervals`: `entry(u).or_insert({pos, pos})`
followed by `end = max(end, pos)`. -/
def updUse (intervals : List (VReg × Interval)) (u : VReg) (pos : Nat) :
    List (VReg × Interval) :=
  match alookup u intervals with
  | none => assocSet intervals u { start := pos, «end» := pos }
  | some iv => assocSet intervals u { iv with «end» := max iv.«end» pos }

/-- One instruction of the `build_intervals` walk at flat position `pos`:
all defs are processed, then all uses. -/
def stepInstr (intervals : List (VReg × Interval)) (pos : Nat) (instr : MachineInstr) :
    List (VReg × Interval) :=
  let afterDefs := instr.defs.foldl (fun m d => updDef m d pos) intervals
  instr.uses.foldl (fun m u => updUse m u pos) afterDefs

/-- The `build_intervals` walk over the flat instruction sequence, carrying
the running flat position. -/
def scanIntervals : List (VReg × Interval) → Nat → List MachineInstr → List (VReg × Interval)
  | m, _, [] => m
  | m, pos, i :: rest => scanIntervals (stepInstr m pos i) (pos + 1) rest

/-- `LinearScan::build_intervals`. -/
def LinearScan.build_intervals (mf : MachineFunc) : List (VReg × Interval) :=
  scanIntervals [] 0 mf.flatInstrs

/-- Flat indices at which `r` is defined or used, starting the numbering at
`pos`. -/
def occIdx (r : VReg) : Nat → List MachineInstr → List Nat
  | _, [] => []
  | pos, i :: rest =>
      (if r ∈ i.defs ∨ r ∈ i.uses then [pos] else []) ++ occIdx r (pos + 1) rest

/-- Flat indices at which `r` is used. -/
def useIdx (r : VReg) : Nat → List MachineInstr → List Nat
  | _, [] => []
  | pos, i :: rest => (if r ∈ i.uses then [pos] else []) ++ useIdx r (pos + 1) rest

/-- Flat indices at which `r` is defined. -/
def defIdx (r : VReg) : Nat → List MachineInstr → List Nat
  | _, [] => []
  | pos, i :: rest => (if r ∈ i.defs then [pos] else []) ++ defIdx r (pos + 1) rest

theorem alookup_assocSet [DecidableEq α] (k k₁ : α) (v : β) (m : List (α × β)) :
    alookup k (assocSet m k₁ v) = if k₁ = k then some v else alookup k m := by
  induction m with
  | nil => simp [assocSet, alookup]
  | cons p t ih =>
      obtain ⟨k₂, v₂⟩ := p
      by_cases h21 : k₂ = k₁
      · subst h21
        by_cases h2k : k₂ = k <;> simp [assocSet, alookup, h2k]
      · by_cases h2k : k₂ = k
        · subst h2k
          have h1k : k₁ ≠ k₂ := fun h => h21 h.symm
          simp [assocSet, alookup, h21, h1k, ih]
        · simp [assocSet, alookup, h21, h2k, ih]

/-- The result of a single `or_insert` + `min` def update on the binding. -/
def defUpd : Option Interval → Nat → Interval
  | none, pos => { start := pos, «end» := pos }
  | some iv, pos => { iv with start := min iv.start pos }

/-- The result of a single `or_insert` + `max` use update on the binding. -/
def useUpd : Option Interval → Nat → Interval
  | none, pos => { start := pos, «end» := pos }
  | some iv, pos => { iv with «end» := max iv.«end» pos }

theorem alookup_updDef (m : List (VReg × Interval)) (x d : VReg) (pos : Nat) :
    alookup x (updDef m d pos) =
      if x = d then some (defUpd (alookup x m) pos) else alookup x m := by
  unfold updDef
  by_cases hx : x = d
  · subst hx
    cases hm : alookup x m <;> simp [alookup_assocSet, hm, defUpd]
  · have hdx : d ≠ x := fun h => hx h.symm
    cases hm : alookup d m <;> simp [alookup_assocSet, hdx, hx]

theorem alookup_updUse (m : List (VReg × Interval)) (x u : VReg) (pos : Nat) :
    alookup x (updUse m u pos) =
      if x = u then some (useUpd (alookup x m) pos) else alookup x m := by
  unfold updUse
  by_cases hx : x = u
  · subst hx
    cases hm : alookup x m <;> simp [alookup_assocSet, hm, useUpd]
  · have hux : u ≠ x := fun h => hx h.symm
    cases hm : alookup u m <;> simp [alookup_assocSet, hux, hx]

theorem defUpd_idem (o : Option Interval) (pos : Nat) :
    defUpd (some (defUpd o pos)) pos = defUpd o pos := by
  cases o <;> simp [defUpd, Nat.min_assoc]

theorem useUpd_idem (o : Option Interval) (pos : Nat) :
    useUpd (some (useUpd o pos)) pos = useUpd o pos := by
  cases o <;> simp [useUpd, Nat.max_assoc]

theorem alookup_foldl_updDef (ds : List VReg) : ∀ m : List (VReg × Interval), ∀ x pos,
    alookup x (ds.foldl (fun m d => updDef m d pos) m) =
      if x ∈ ds then some (defUpd (alookup x m) pos) else alookup x m := by
  induction ds with
  | nil => intro m x pos; simp
  | cons d t ih =>
      intro m x pos
      rw [List.foldl_cons, ih]
      rw [alookup_updDef]
      by_cases hxd : x = d <;> by_cases hxt : x ∈ t <;>
        simp [hxd, hxt, defUpd_idem, List.mem_cons]

theorem alookup_foldl_updUse (us : List VReg) : ∀ m : List (VReg × Interval), ∀ x pos,
    alookup x (us.foldl (fun m u => updUse m u pos) m) =
      if x ∈ us then some (useUpd (alookup x m) pos) else alookup x m := by
  induction us with
  | nil => intro m x pos; simp
  | cons u t ih =>
      intro m x pos
      rw [List.foldl_cons, ih]
      rw [alookup_updUse]
      by_cases hxu : x = u <;> by_cases hxt : x ∈ t <;>
        simp [hxu, hxt, useUpd_idem, List.mem_cons]

theorem alookup_stepInstr (m : List (VReg × Interval)) (pos : Nat) (i : MachineInstr)
    (x : VReg) :
    alookup x (stepInstr m pos i) =
      (fun o₁ => if x ∈ i.uses then some (useUpd o₁ pos) else o₁)
        (if x ∈ i.defs then some (defUpd (alookup x m) pos) else alookup x m) := by
  unfold stepInstr
  rw [alookup_foldl_updUse, alookup_foldl_updDef]
theorem foldl_min_le_init (l : List Nat) : ∀ a : Nat, l.foldl min a ≤ a := by
  induction l with
  | nil => intro a; exact le_refl a
  | cons b t ih => intro a; exact le_trans (ih (min a b)) (min_le_left a b)

theorem foldl_min_mem (l : List Nat) : ∀ a : Nat, l.foldl min a = a ∨ l.foldl min a ∈ l := by
  induction l with
  | nil => intro a; exact Or.inl rfl
  | cons b t ih =>
      intro a
      rcases ih (min a b) with h | h
      · rw [List.foldl_cons, h]
        rcases Nat.le_total a b with hab | hab
        · exact Or.inl (min_eq_left hab)
        · rw [min_eq_right hab]
          exact Or.inr (List.mem_cons_self b t)
      · exact Or.inr (List.mem_cons_of_mem b h)

theorem foldl_min_le_mem (l : List Nat) : ∀ a x : Nat, x ∈ l → l.foldl min a ≤ x := by
  induction l with
  | nil => intro a x hx; cases hx
  | cons b t ih =>
      intro a x hx
      rcases List.mem_cons.mp hx with rfl | h
      · exact le_trans (foldl_min_le_init t (min a x)) (min_le_right a x)
      · exact ih (min a b) x h

theorem foldl_min_eq_init (l : List Nat) : ∀ a : Nat, (∀ x ∈ l, a ≤ x) → l.foldl min a = a := by
  induction l with
  | nil => intro a _; rfl
  | cons b t ih =>
      intro a h
      rw [List.foldl_cons, min_eq_left (h b (List.mem_cons_self b t))]
      exact ih a fun x hx => h x (List.mem_cons_of_mem b hx)

theorem foldl_max_init_le (l : List Nat) : ∀ a : Nat, a ≤ l.foldl max a := by
  induction l with
  | nil => intro a; exact le_refl a
  | cons b t ih => intro a; exact le_trans (le_max_left a b) (ih (max a b))

theorem foldl_max_mem (l : List Nat) : ∀ a : Nat, l.foldl max a = a ∨ l.foldl max a ∈ l := by
  induction l with
  | nil => intro a; exact Or.inl rfl
  | cons b t ih =>
      intro a
      rcases ih (max a b) with h | h
      · rw [List.foldl_cons, h]
        rcases Nat.le_total a b with hab | hab
        · rw [max_eq_right hab]
          exact Or.inr (List.mem_cons_self b t)
        · exact Or.inl (max_eq_left hab)
      · exact Or.inr (List.mem_cons_of_mem b h)

theorem foldl_max_mem_le (l : List Nat) : ∀ a x : Nat, x ∈ l → x ≤ l.foldl max a := by
  induction l with
  | nil => intro a x hx; cases hx
  | cons b t ih =>
      intro a x hx
      rcases List.mem_cons.mp hx with rfl | h
      · exact le_trans (le_max_right a x) (foldl_max_init_le t (max a x))
      · exact ih (max a b) x h

theorem occIdx_ge (r : VReg) (flat : List MachineInstr) :
    ∀ pos q, q ∈ occIdx r pos flat → pos ≤ q := by
  induction flat with
  | nil => intro pos q h; cases h
  | cons i t ih =>
      intro pos q h
      rw [occIdx] at h
      rcases List.mem_append.mp h with h₁ | h₁
      · by_cases hc : r ∈ i.defs ∨ r ∈ i.uses
        · rw [if_pos hc] at h₁
          obtain rfl := List.mem_singleton.mp h₁
          exact le_refl q
        · rw [if_neg hc] at h₁
          cases h₁
      · exact le_trans (Nat.le_succ pos) (ih (pos + 1) q h₁)

theorem useIdx_ge (r : VReg) (flat : List MachineInstr) :
    ∀ pos q, q ∈ useIdx r pos flat → pos ≤ q := by
  induction flat with
  | nil => intro pos q h; cases h
  | cons i t ih =>
      intro pos q h
      rw [useIdx] at h
      rcases List.mem_append.mp h with h₁ | h₁
      · by_cases hc : r ∈ i.uses
        · rw [if_pos hc] at h₁
          obtain rfl := List.mem_singleton.mp h₁
          exact le_refl q
        · rw [if_neg hc] at h₁
          cases h₁
      · exact le_trans (Nat.le_succ pos) (ih (pos + 1) q h₁)

theorem defIdx_ge (r : VReg) (flat : List MachineInstr) :
    ∀ pos q, q ∈ defIdx r pos flat → pos ≤ q := by
  induction flat with
  | nil => intro pos q h; cases h
  | cons i t ih =>
      intro pos q h
      rw [defIdx] at h
      rcases List.mem_append.mp h with h₁ | h₁
      · by_cases hc : r ∈ i.defs
        · rw [if_pos hc] at h₁
          obtain rfl := List.mem_singleton.mp h₁
          exact le_refl q
        · rw [if_neg hc] at h₁
          cases h₁
      · exact le_trans (Nat.le_succ pos) (ih (pos + 1) q h₁)

theorem defIdx_subset_occIdx (r : VReg) (flat : List MachineInstr) :
    ∀ pos q, q ∈ defIdx r pos flat → q ∈ occIdx r pos flat := by
  induction flat with
  | nil => intro pos q h; cases h
  | cons i t ih =>
      intro pos q h
      rw [defIdx] at h
      rw [occIdx]
      rcases List.mem_append.mp h with h₁ | h₁
      · by_cases hc : r ∈ i.defs
        · rw [if_pos hc] at h₁
          obtain rfl := List.mem_singleton.mp h₁
          exact List.mem_append.mpr (Or.inl (by simp [hc]))
        · rw [if_neg hc] at h₁
          cases h₁
      · exact List.mem_append.mpr (Or.inr (ih (pos + 1) q h₁))

theorem useIdx_subset_occIdx (r : VReg) (flat : List MachineInstr) :
    ∀ pos q, q ∈ useIdx r pos flat → q ∈ occIdx r pos flat := by
  induction flat with
  | nil => intro pos q h; cases h
  | cons i t ih =>
      intro pos q h
      rw [useIdx] at h
      rw [occIdx]
      rcases List.mem_append.mp h with h₁ | h₁
      · by_cases hc : r ∈ i.uses
        · rw [if_pos hc] at h₁
          obtain rfl := List.mem_singleton.mp h₁
          exact List.mem_append.mpr (Or.inl (by simp [hc]))
        · rw [if_neg hc] at h₁
          cases h₁
      · exact List.mem_append.mpr (Or.inr (ih (pos + 1) q h₁))

theorem scan_existing (r : VReg) (flat : List MachineInstr) : ∀ pos m iv,
    alookup r m = some iv →
    alookup r (scanIntervals m pos flat) =
      some { start := (defIdx r pos flat).foldl min iv.start,
             «end» := (useIdx r pos flat).foldl max iv.«end» } := by
  induction flat with
  | nil =>
      intro pos m iv hm
      simpa [scanIntervals, defIdx, useIdx] using hm
  | cons i t ih =>
      intro pos m iv hm
      rw [scanIntervals]
      have h₂ : alookup r (stepInstr m pos i) =
          some { start := if r ∈ i.defs then min iv.start pos else iv.start,
                 «end» := if r ∈ i.uses then max iv.«end» pos else iv.«end» } := by
        rw [alookup_stepInstr, hm]
        by_cases hd : r ∈ i.defs <;> by_cases hu : r ∈ i.uses <;>
          simp [hd, hu, defUpd, useUpd]
      rw [ih (pos + 1) _ _ h₂]
      by_cases hd : r ∈ i.defs <;> by_cases hu : r ∈ i.uses <;>
        simp [defIdx, useIdx, hd, hu, List.foldl_append]

theorem scan_fresh (r : VReg) (flat : List MachineInstr) : ∀ pos m,
    alookup r m = none →
    (alookup r (scanIntervals m pos flat) = none ↔ occIdx r pos flat = [])
    ∧ (∀ iv, alookup r (scanIntervals m pos flat) = some iv →
        (iv.start ∈ occIdx r pos flat ∧ ∀ q ∈ occIdx r pos flat, iv.start ≤ q)
        ∧ (useIdx r pos flat = [] → iv.«end» = iv.start)
        ∧ (useIdx r pos flat ≠ [] →
            iv.«end» ∈ useIdx r pos flat ∧ ∀ q ∈ useIdx r pos flat, q ≤ iv.«end»)) := by
  induction flat with
  | nil =>
      intro pos m hm
      constructor
      · simp [scanIntervals, occIdx, hm]
      · intro iv hiv
        rw [scanIntervals, hm] at hiv
        exact Option.noConfusion hiv
  | cons i t ih =>
      intro pos m hm
      by_cases hocc : r ∈ i.defs ∨ r ∈ i.uses
      · have h₂ : alookup r (stepInstr m pos i) = some { start := pos, «end» := pos } := by
          rw [alookup_stepInstr, hm]
          rcases hocc with hd | hu
          · by_cases hu : r ∈ i.uses <;> simp [hd, hu, defUpd, useUpd]
          · by_cases hd : r ∈ i.defs <;> simp [hd, hu, defUpd, useUpd]
        have hfin := scan_existing r t (pos + 1) _ _ h₂
        have hoccL : occIdx r pos (i :: t) = pos :: occIdx r (pos + 1) t := by
          rw [occIdx, if_pos hocc]
          rfl
        constructor
        · rw [scanIntervals, hfin, hoccL]
          simp
        · intro iv hiv
          rw [scanIntervals, hfin] at hiv
          obtain rfl := (Option.some.inj hiv).symm
          simp only
          refine ⟨⟨?_, ?_⟩, ?_, ?_⟩
          · rw [hoccL]
            rcases foldl_min_mem (defIdx r (pos + 1) t) pos with h | h
            · rw [h]
              exact List.mem_cons_self _ _
            · exact List.mem_cons_of_mem _ (defIdx_subset_occIdx r t (pos + 1) _ h)
          · intro q hq
            rw [hoccL] at hq
            rcases List.mem_cons.mp hq with rfl | hq₁
            · exact foldl_min_le_init _ _
            · exact le_trans (le_trans (foldl_min_le_init _ _) (Nat.le_succ pos))
                (occIdx_ge r t (pos + 1) q hq₁)
          · intro hue
            rw [useIdx] at hue
            rcases List.append_eq_nil.mp hue with ⟨hue₁, hue₂⟩
            rw [hue₂, List.foldl_nil]
            rw [foldl_min_eq_init _ _ (fun x hx =>
              le_trans (Nat.le_succ pos) (defIdx_ge r t (pos + 1) x hx))]
          · intro hne
            constructor
            · rcases foldl_max_mem (useIdx r (pos + 1) t) pos with h | h
              · rw [h]
                by_cases hu : r ∈ i.uses
                · rw [useIdx, if_pos hu]
                  exact List.mem_append.mpr (Or.inl (List.mem_singleton.mpr rfl))
                · exfalso
                  rw [useIdx, if_neg hu, List.nil_append] at hne
                  rcases List.exists_mem_of_ne_nil _ hne with ⟨x, hx⟩
                  have hx₁ := useIdx_ge r t (pos + 1) x hx
                  have hx₂ := foldl_max_mem_le (useIdx r (pos + 1) t) pos x hx
                  omega
              · rw [useIdx]
                exact List.mem_append.mpr (Or.inr h)
            · intro q hq
              rw [useIdx] at hq
              rcases List.mem_append.mp hq with hq₁ | hq₁
              · by_cases hu : r ∈ i.uses
                · rw [if_pos hu] at hq₁
                  obtain rfl := List.mem_singleton.mp hq₁
                  exact foldl_max_init_le _ _
                · rw [if_neg hu] at hq₁
                  cases hq₁
              · exact foldl_max_mem_le _ _ _ hq₁
      · have hnd : ¬ r ∈ i.defs := fun h => hocc (Or.inl h)
        have hnu : ¬ r ∈ i.uses := fun h => hocc (Or.inr h)
        have h₂ : alookup r (stepInstr m pos i) = none := by
          rw [alookup_stepInstr, hm]
          simp [hnd, hnu]
        have hoccL : occIdx r pos (i :: t) = occIdx r (pos + 1) t := by
          rw [occIdx, if_neg hocc, List.nil_append]
        have huseL : useIdx r pos (i :: t) = useIdx r (pos + 1) t := by
          rw [useIdx, if_neg hnu, List.nil_append]
        rw [scanIntervals, hoccL, huseL]
        exact ih (pos + 1) (stepInstr m pos i) h₂

/-- C2 (amended): `build_intervals` assigns `r` an interval exactly when `r`
occurs in the function; the interval's `start` is the smallest flat index at
which `r` is defined **or used** (an early use, e.g. of an undefined or
ABI register, lowers the start below the first define), and its `end` is the
largest flat index at which `r` is **used** — or equals `start` when `r` has
no use — because a later define updates only the `min` for `start` and never
extends the `end`. -/
theorem c2_build_intervals_char (mf : MachineFunc) (r : VReg) :
    (alookup r (LinearScan.build_intervals mf) = none ↔ occIdx r 0 mf.flatInstrs = [])
    ∧ (∀ iv, alookup r (LinearScan.build_intervals mf) = some iv →
        (iv.start ∈ occIdx r 0 mf.flatInstrs ∧ ∀ q ∈ occIdx r 0 mf.flatInstrs, iv.start ≤ q)
        ∧ (useIdx r 0 mf.flatInstrs = [] → iv.«end» = iv.start)
        ∧ (useIdx r 0 mf.flatInstrs ≠ [] →
            iv.«end» ∈ useIdx r 0 mf.flatInstrs
            ∧ ∀ q ∈ useIdx r 0 mf.flatInstrs, q ≤ iv.«end»)) :=
  scan_fresh r mf.flatInstrs 0 [] rfl

/-- The C2 counterexample function: one block holding
`Mv v1, v0` (a use of `v0` at flat index 0) followed by `Li v0, 5`
(a define of `v0` at flat index 1). -/
def mvThenLi : MachineFunc :=
  { name := "main", args := []
    blocks := [ { name := "entry"
                , instrs := [ MachineInstr.Mv (VReg.Virtual 1) (VReg.Virtual 0)
                            , MachineInstr.Li (VReg.Virtual 0) 5 ]
                , succs := [] } ]
    label_to_idx := [("entry", 0)] }

/-- C2 counterexample: `v0` is defined only at flat index 1 and
defined-or-used last at index 1, so the claim requires the interval
`{start: 1, end: 1}`; `build_intervals` yields `{start: 0, end: 0}` — the use
at index 0 establishes (and keeps) the start, and the later define does not
extend the end. -/
theorem c2_interval_not_def_bounded :
    alookup (VReg.Virtual 0) (LinearScan.build_intervals mvThenLi)
      = some { start := 0, «end» := 0 }
    ∧ defIdx (VReg.Virtual 0) 0 mvThenLi.flatInstrs = [1]
    ∧ occIdx (VReg.Virtual 0) 0 mvThenLi.flatInstrs = [0, 1]
    ∧ alookup (VReg.Virtual 0) (LinearScan.build_intervals mvThenLi)
        ≠ some { start := 1, «end» := 1 } := by
  exact ⟨rfl, rfl, rfl, by decide⟩

/-- The C2 witness function: `Li v0, 5` then `Mv v1, v0`, so `v0` is
established at index 0 and used at index 1. -/
def liThenMv : MachineFunc :=
  { name := "main", args := []
    blocks := [ { name := "entry"
                , instrs := [ MachineInstr.Li (VReg.Virtual 0) 5
                            , MachineInstr.Mv (VReg.Virtual 1) (VReg.Virtual 0) ]
                , succs := [] } ]
    label_to_idx := [("entry", 0)] }

theorem c2_build_intervals_char_witness :
    ((0 : Nat) ∈ occIdx (VReg.Virtual 0) 0 liThenMv.flatInstrs
      ∧ ∀ q ∈ occIdx (VReg.Virtual 0) 0 liThenMv.flatInstrs, 0 ≤ q)
    ∧ (useIdx (VReg.Virtual 0) 0 liThenMv.flatInstrs = [] → (1 : Nat) = 0)
    ∧ (useIdx (VReg.Virtual 0) 0 liThenMv.flatInstrs ≠ [] →
        (1 : Nat) ∈ useIdx (VReg.Virtual 0) 0 liThenMv.flatInstrs
        ∧ ∀ q ∈ useIdx (VReg.Virtual 0) 0 liThenMv.flatInstrs, q ≤ 1) :=
  (c2_build_intervals_char liThenMv (VReg.Virtual 0)).2 { start := 0, «end» := 1 } rfl

end register_alloc
